/- Verification of the DocumentIntelligencePlatform retrieval pipeline.
   Shallow embedding of the vector store (documents/vector_store.py), the
   chunker (documents/processing.py), the answer generation wrapper
   (documents/llm_service.py) and the ingest pipeline (documents/views.py),
   together with theorems settling the specification's claims. -/
import Mathlib

namespace DocPlatform

/-! ## Chunk dictionaries

`DocumentProcessor._create_chunk` builds a dict with the fields below; the
same dicts are the input of `VectorStore.add_chunks`. -/

/-- A chunk dictionary as built by `_create_chunk` in processing.py. -/
structure Chunk where
  text : String
  chunk_index : ℤ
  page_numbers : List ℤ
  token_count : ℤ
  document_id : ℤ
deriving DecidableEq

/-! ## The vector store (documents/vector_store.py)

`VectorStore.embeddings_data` is a Python dict mapping a chunk id string to
a record dict.  A Python dict is insertion ordered: we model it as an
association list in which assignment to an existing key replaces the value
in place and assignment to a fresh key appends at the end. -/

/-- The value stored under one key of `embeddings_data` (vector_store.py,
`add_chunks`, lines 74-81). -/
structure EmbeddingRecord where
  embedding : List ℝ
  text : String
  document_id : ℤ
  chunk_index : ℤ
  page_numbers : List ℤ
  token_count : ℤ

/-- `VectorStore.embeddings_data`, as an insertion-ordered association list. -/
abbrev Store := List (String × EmbeddingRecord)

/-- Membership test of a key, `chunk_id in dict` / dict key lookup hit. -/
def dictContains (s : Store) (k : String) : Bool :=
  s.any (fun p => p.1 == k)

/-- Python dict assignment `d[k] = v`: replace in place when the key exists,
append at the end otherwise. -/
def dictSet (s : Store) (k : String) (v : EmbeddingRecord) : Store :=
  if dictContains s k then
    s.map (fun p => if p.1 == k then (k, v) else p)
  else s ++ [(k, v)]

/-- Python dict deletion `del d[k]`. -/
def dictDel (s : Store) (k : String) : Store :=
  s.filter (fun p => !(p.1 == k))

/-- The deterministic chunk id `f"doc_{chunk['document_id']}_chunk_{chunk['chunk_index']}"`
(vector_store.py line 70). -/
def mkChunkId (d i : ℤ) : String :=
  "doc_" ++ toString d ++ "_chunk_" ++ toString i

/-- The record stored for a chunk: its embedding (as returned by the
embedding capability) together with the chunk's metadata
(vector_store.py lines 74-81). -/
def recordOfChunk (c : Chunk) (e : List ℝ) : EmbeddingRecord :=
  { embedding := e
    text := c.text
    document_id := c.document_id
    chunk_index := c.chunk_index
    page_numbers := c.page_numbers
    token_count := c.token_count }

/-- The indexed storing loop of `add_chunks` (lines 68-81): for each chunk,
build its id, store the record under it, and collect the id. -/
def addChunksAux (embeds : List (List ℝ)) : Store → ℕ → List Chunk → Store × List String
  | store, _, [] => (store, [])
  | store, i, c :: cs =>
    let cid := mkChunkId c.document_id c.chunk_index
    let store' := dictSet store cid (recordOfChunk c (embeds.getD i []))
    let r := addChunksAux embeds store' (i + 1) cs
    (r.1, cid :: r.2)

/-- `VectorStore.add_chunks` (vector_store.py lines 49-91).  An empty chunk
list returns `[]` immediately; otherwise the embedding capability is called
once for the batch (its reply is the `embeds` argument) and every chunk is
stored under its deterministic id.  Returns the updated store and the list
of ids. -/
def add_chunks (store : Store) (chunks : List Chunk) (embeds : List (List ℝ)) :
    Store × List String :=
  if chunks.isEmpty then (store, []) else addChunksAux embeds store 0 chunks

/-- `VectorStore.delete_document_chunks` (vector_store.py lines 155-176):
collect the keys of all records with the given document id, delete each of
them, and return `len(chunks_to_delete) > 0` (a boolean). -/
def delete_document_chunks (store : Store) (document_id : ℤ) : Store × Bool :=
  let chunks_to_delete :=
    (store.filter (fun p => p.2.document_id == document_id)).map Prod.fst
  let store' := chunks_to_delete.foldl dictDel store
  (store', decide (0 < chunks_to_delete.length))

/-- The statistics returned by `get_collection_stats`
(vector_store.py lines 178-195). -/
structure CollectionStats where
  total_chunks : ℕ
  documents_with_chunks : ℕ
deriving DecidableEq

/-- `VectorStore.get_collection_stats`: the number of stored records and the
number of distinct document ids among them. -/
def get_collection_stats (store : Store) : CollectionStats :=
  { total_chunks := store.length
    documents_with_chunks := (store.map (fun p => p.2.document_id)).dedup.length }

/-- `VectorStore.reset_collection` (vector_store.py lines 197-206). -/
def reset_collection (_store : Store) : Store × Bool :=
  ([], true)

/-! ## Basic facts about the dict model -/

theorem dictContains_iff_mem_keys (s : Store) (k : String) :
    dictContains s k = true ↔ k ∈ s.map Prod.fst := by
  simp [dictContains, List.any_eq_true, List.mem_map, beq_iff_eq]

theorem dictSet_keys_of_contains (s : Store) (k : String) (v : EmbeddingRecord)
    (h : dictContains s k = true) :
    (dictSet s k v).map Prod.fst = s.map Prod.fst := by
  simp only [dictSet, h, if_true, List.map_map]
  refine List.map_congr_left ?_
  intro a _
  simp only [Function.comp_apply]
  by_cases hb : a.1 == k
  · rw [if_pos hb]
    exact (eq_of_beq hb).symm
  · rw [if_neg hb]

theorem dictSet_keys_of_not_contains (s : Store) (k : String) (v : EmbeddingRecord)
    (h : ¬ dictContains s k = true) :
    (dictSet s k v).map Prod.fst = s.map Prod.fst ++ [k] := by
  simp only [dictSet, h, if_false]
  simp

theorem mem_keys_dictSet (s : Store) (k : String) (v : EmbeddingRecord) :
    k ∈ (dictSet s k v).map Prod.fst := by
  by_cases h : dictContains s k = true
  · rw [dictSet_keys_of_contains s k v h]
    exact (dictContains_iff_mem_keys s k).mp h
  · rw [dictSet_keys_of_not_contains s k v h]
    simp

theorem keys_subset_dictSet (s : Store) (k : String) (v : EmbeddingRecord) :
    s.map Prod.fst ⊆ (dictSet s k v).map Prod.fst := by
  by_cases h : dictContains s k = true
  · rw [dictSet_keys_of_contains s k v h]
    exact fun a ha => ha
  · rw [dictSet_keys_of_not_contains s k v h]
    exact List.subset_append_left _ _

theorem dictSet_keys_nodup (s : Store) (k : String) (v : EmbeddingRecord)
    (h : (s.map Prod.fst).Nodup) : ((dictSet s k v).map Prod.fst).Nodup := by
  by_cases hc : dictContains s k = true
  · rw [dictSet_keys_of_contains s k v hc]; exact h
  · rw [dictSet_keys_of_not_contains s k v hc]
    refine List.Nodup.append h (List.nodup_singleton k) ?_
    intro a ha hb
    rw [List.mem_singleton] at hb
    subst hb
    exact hc ((dictContains_iff_mem_keys s a).mpr ha)

theorem mem_of_mem_dictSet (s : Store) (k : String) (v : EmbeddingRecord)
    (p : String × EmbeddingRecord) (hp : p ∈ dictSet s k v) :
    p = (k, v) ∨ p ∈ s := by
  unfold dictSet at hp
  by_cases hc : dictContains s k = true
  · rw [if_pos hc] at hp
    obtain ⟨q, hq, hpq⟩ := List.mem_map.mp hp
    by_cases hqk : q.1 == k
    · rw [if_pos hqk] at hpq; exact Or.inl hpq.symm
    · rw [if_neg hqk] at hpq; exact Or.inr (hpq ▸ hq)
  · rw [if_neg hc] at hp
    rcases List.mem_append.mp hp with h | h
    · exact Or.inr h
    · exact Or.inl (List.mem_singleton.mp h)

/-! ## Claim C10: add_chunks on an empty chunk list -/

/-- **C10.** `add_chunks` called with an empty chunk list returns the empty
id list and leaves the store unchanged, for every possible reply of the
embedding capability — in particular its result does not depend on the
capability at all, reflecting that the early return fires before the
embedding call. -/
theorem add_chunks_empty_noop (store : Store) (embeds embeds' : List (List ℝ)) :
    add_chunks store [] embeds = (store, []) ∧
    add_chunks store [] embeds = add_chunks store [] embeds' := by
  constructor <;> rfl

/-! ## Claim C9: key/record consistency invariant -/

/-- Every stored key is the deterministic id built from the fields of the
record stored under it. -/
def KeyConsistent (store : Store) : Prop :=
  ∀ p ∈ store, p.1 = mkChunkId p.2.document_id p.2.chunk_index

/-- One mutating operation of the vector store. -/
inductive StoreOp where
  | add (chunks : List Chunk) (embeds : List (List ℝ))
  | delete (document_id : ℤ)
  | reset

/-- Effect of a mutating operation on the store. -/
def applyOp (store : Store) : StoreOp → Store
  | .add chunks embeds => (add_chunks store chunks embeds).1
  | .delete d => (delete_document_chunks store d).1
  | .reset => (reset_collection store).1

/-- The store reached from the empty store by a sequence of operations. -/
def runOps (ops : List StoreOp) : Store :=
  ops.foldl applyOp []

theorem keyConsistent_dictSet (s : Store) (k : String) (v : EmbeddingRecord)
    (hs : KeyConsistent s) (hk : k = mkChunkId v.document_id v.chunk_index) :
    KeyConsistent (dictSet s k v) := by
  intro p hp
  rcases mem_of_mem_dictSet s k v p hp with h | h
  · subst h; exact hk
  · exact hs p h

theorem keyConsistent_addChunksAux (embeds : List (List ℝ)) :
    ∀ (chunks : List Chunk) (s : Store) (i : ℕ), KeyConsistent s →
      KeyConsistent (addChunksAux embeds s i chunks).1 := by
  intro chunks
  induction chunks with
  | nil => intro s i hs; exact hs
  | cons c cs ih =>
    intro s i hs
    exact ih _ _ (keyConsistent_dictSet _ _ _ hs rfl)

theorem keyConsistent_applyOp (s : Store) (op : StoreOp) (hs : KeyConsistent s) :
    KeyConsistent (applyOp s op) := by
  cases op with
  | add chunks embeds =>
    simp only [applyOp, add_chunks]
    by_cases h : chunks.isEmpty
    · rw [if_pos h]; exact hs
    · rw [if_neg h]; exact keyConsistent_addChunksAux embeds chunks s 0 hs
  | delete d =>
    simp only [applyOp, delete_document_chunks]
    intro p hp
    have hmem : p ∈ s := by
      have : ∀ (ks : List String) (t : Store), p ∈ ks.foldl dictDel t → p ∈ t := by
        intro ks
        induction ks with
        | nil => intro t h; exact h
        | cons k ks ihk =>
          intro t h
          exact List.mem_of_mem_filter (ihk (dictDel t k) h)
      exact this _ s hp
    exact hs p hmem
  | reset =>
    intro p hp
    simp [applyOp, reset_collection] at hp

/-- **C9.** From the empty store, every sequence of `add_chunks`,
`delete_document_chunks` and `reset_collection` operations leads to a store
in which every key has the form `doc_<d>_chunk_<i>`, with `d` and `i` equal
to the `document_id` and `chunk_index` fields of the record stored under
that key. -/
theorem store_key_consistency (ops : List StoreOp) : KeyConsistent (runOps ops) := by
  have main : ∀ (l : List StoreOp) (s : Store), KeyConsistent s →
      KeyConsistent (l.foldl applyOp s) := by
    intro l
    induction l with
    | nil => intro s hs; exact hs
    | cons op rest ih => intro s hs; exact ih _ (keyConsistent_applyOp s op hs)
  exact main ops [] (by intro p hp; simp at hp)

/-! ## Claim C6: idempotent re-add -/

/-- The deterministic key of a chunk. -/
def chunkKey (c : Chunk) : String :=
  mkChunkId c.document_id c.chunk_index

theorem addChunksAux_keys_superset (embeds : List (List ℝ)) :
    ∀ (chunks : List Chunk) (s : Store) (i : ℕ),
      s.map Prod.fst ⊆ ((addChunksAux embeds s i chunks).1).map Prod.fst := by
  intro chunks
  induction chunks with
  | nil => intro s i; exact fun a ha => ha
  | cons c cs ih =>
    intro s i
    exact fun a ha => ih _ (i + 1) (keys_subset_dictSet s _ _ ha)

theorem addChunksAux_mem_keys (embeds : List (List ℝ)) :
    ∀ (chunks : List Chunk) (s : Store) (i : ℕ) (c : Chunk), c ∈ chunks →
      chunkKey c ∈ ((addChunksAux embeds s i chunks).1).map Prod.fst := by
  intro chunks
  induction chunks with
  | nil => intro s i c hc; exact absurd hc (List.not_mem_nil c)
  | cons c0 cs ih =>
    intro s i c hc
    rcases List.mem_cons.mp hc with h | h
    · subst h
      exact addChunksAux_keys_superset embeds cs _ (i + 1) (mem_keys_dictSet s _ _)
    · exact ih _ (i + 1) c h

theorem addChunksAux_keys_of_all_contained (embeds : List (List ℝ)) :
    ∀ (chunks : List Chunk) (s : Store) (i : ℕ),
      (∀ c ∈ chunks, chunkKey c ∈ s.map Prod.fst) →
      ((addChunksAux embeds s i chunks).1).map Prod.fst = s.map Prod.fst := by
  intro chunks
  induction chunks with
  | nil => intro s i _; rfl
  | cons c cs ih =>
    intro s i hall
    have hc : chunkKey c ∈ s.map Prod.fst := hall c (List.mem_cons_self c cs)
    have hcont : dictContains s (chunkKey c) = true :=
      (dictContains_iff_mem_keys s _).mpr hc
    have hkeys : (dictSet s (chunkKey c) (recordOfChunk c (embeds.getD i []))).map Prod.fst
        = s.map Prod.fst := dictSet_keys_of_contains s _ _ hcont
    have := ih (dictSet s (chunkKey c) (recordOfChunk c (embeds.getD i []))) (i + 1)
      (by intro c' hc'; rw [hkeys]; exact hall c' (List.mem_cons_of_mem c hc'))
    calc ((addChunksAux embeds s i (c :: cs)).1).map Prod.fst
        = ((addChunksAux embeds (dictSet s (chunkKey c) (recordOfChunk c (embeds.getD i [])))
            (i + 1) cs).1).map Prod.fst := rfl
      _ = (dictSet s (chunkKey c) (recordOfChunk c (embeds.getD i []))).map Prod.fst := this
      _ = s.map Prod.fst := hkeys

theorem addChunksAux_keys_nodup (embeds : List (List ℝ)) :
    ∀ (chunks : List Chunk) (s : Store) (i : ℕ),
      (s.map Prod.fst).Nodup → (((addChunksAux embeds s i chunks).1).map Prod.fst).Nodup := by
  intro chunks
  induction chunks with
  | nil => intro s i h; exact h
  | cons c cs ih =>
    intro s i h
    exact ih _ (i + 1) (dictSet_keys_nodup s _ _ h)

theorem filter_key_length_one (s : Store) (k : String)
    (hnd : (s.map Prod.fst).Nodup) (hmem : k ∈ s.map Prod.fst) :
    (s.filter (fun p => p.1 == k)).length = 1 := by
  have h1 : (s.filter (fun p => p.1 == k)).length = s.countP (fun p => p.1 == k) :=
    (List.countP_eq_length_filter _ _).symm
  have h2 : s.countP (fun p => p.1 == k) = (s.map Prod.fst).count k := by
    rw [List.count, List.countP_map]
    rfl
  rw [h1, h2]
  exact List.count_eq_one_of_mem hnd hmem

/-- **C6.** Calling `add_chunks` a second time with the same chunk keys
(same document id and chunk indices) overwrites instead of duplicating:
afterwards the store holds exactly one record per chunk key, and
`get_collection_stats().total_chunks` is unchanged by the second call. -/
theorem add_chunks_idempotent (store : Store) (chunks chunks' : List Chunk)
    (embeds embeds' : List (List ℝ))
    (hnd : (store.map Prod.fst).Nodup)
    (hkeys : chunks'.map chunkKey = chunks.map chunkKey) :
    (get_collection_stats (add_chunks (add_chunks store chunks embeds).1 chunks' embeds').1).total_chunks
      = (get_collection_stats (add_chunks store chunks embeds).1).total_chunks ∧
    ∀ c ∈ chunks,
      (((add_chunks (add_chunks store chunks embeds).1 chunks' embeds').1).filter
          (fun p => p.1 == chunkKey c)).length = 1 := by
  by_cases hemp : chunks.isEmpty
  · have hnil : chunks = [] := List.isEmpty_iff.mp hemp
    subst hnil
    have hnil' : chunks' = [] := by
      simpa using congrArg List.length hkeys
    subst hnil'
    constructor
    · rfl
    · intro c hc; exact absurd hc (List.not_mem_nil c)
  · have hne : chunks ≠ [] := fun h => hemp (by simp [h])
    have hne' : chunks' ≠ [] := by
      intro h
      subst h
      exact hne (List.map_eq_nil_iff.mp hkeys.symm)
    have hs1 : (add_chunks store chunks embeds).1 = (addChunksAux embeds store 0 chunks).1 := by
      simp [add_chunks, hemp]
    have hs2 : (add_chunks (add_chunks store chunks embeds).1 chunks' embeds').1
        = (addChunksAux embeds' (add_chunks store chunks embeds).1 0 chunks').1 := by
      have : ¬ chunks'.isEmpty := by
        intro h; exact hne' (List.isEmpty_iff.mp h)
      simp [add_chunks, this]
    -- every key of the second batch is already present after the first call
    have hpresent : ∀ c ∈ chunks', chunkKey c ∈ ((add_chunks store chunks embeds).1).map Prod.fst := by
      intro c hc
      have : chunkKey c ∈ chunks'.map chunkKey := List.mem_map_of_mem chunkKey hc
      rw [hkeys] at this
      obtain ⟨c0, hc0, hck⟩ := List.mem_map.mp this
      rw [hs1, ← hck]
      exact addChunksAux_mem_keys embeds chunks store 0 c0 hc0
    have hsamekeys : (((add_chunks (add_chunks store chunks embeds).1 chunks' embeds').1).map Prod.fst)
        = ((add_chunks store chunks embeds).1).map Prod.fst := by
      rw [hs2]
      exact addChunksAux_keys_of_all_contained embeds' chunks' _ 0 hpresent
    constructor
    · simp only [get_collection_stats]
      have := congrArg List.length hsamekeys
      simpa using this
    · intro c hc
      have hnd1 : (((add_chunks store chunks embeds).1).map Prod.fst).Nodup := by
        rw [hs1]
        exact addChunksAux_keys_nodup embeds chunks store 0 hnd
      have hnd2 : (((add_chunks (add_chunks store chunks embeds).1 chunks' embeds').1).map Prod.fst).Nodup := by
        rw [hsamekeys]; exact hnd1
      have hmem : chunkKey c ∈ (((add_chunks (add_chunks store chunks embeds).1 chunks' embeds').1).map Prod.fst) := by
        rw [hsamekeys, hs1]
        exact addChunksAux_mem_keys embeds chunks store 0 c hc
      exact filter_key_length_one _ _ hnd2 hmem

/-- Record used in concrete test stores. -/
def testChunk (d i : ℤ) : Chunk :=
  { text := "", chunk_index := i, page_numbers := [], token_count := 0, document_id := d }

/-- Witness for C6: re-adding the single chunk (document 1, index 0) leaves
one record and an unchanged total. -/
theorem add_chunks_idempotent_witness :
    ((([] : Store).map Prod.fst).Nodup ∧
      [testChunk 1 0].map chunkKey = [testChunk 1 0].map chunkKey) ∧
    ((get_collection_stats (add_chunks (add_chunks [] [testChunk 1 0] [[]]).1 [testChunk 1 0] [[]]).1).total_chunks
        = (get_collection_stats (add_chunks [] [testChunk 1 0] [[]]).1).total_chunks ∧
      ∀ c ∈ [testChunk 1 0],
        (((add_chunks (add_chunks [] [testChunk 1 0] [[]]).1 [testChunk 1 0] [[]]).1).filter
            (fun p => p.1 == chunkKey c)).length = 1) :=
  ⟨⟨List.nodup_nil, rfl⟩,
    add_chunks_idempotent [] [testChunk 1 0] [testChunk 1 0] [[]] [[]] List.nodup_nil rfl⟩

/-! ## Claim C5: delete_document_chunks -/

/-- Python identifies `bool` with the integers 0 and 1 (`True == 1`,
`False == 0`); this is the integer reading of a returned boolean. -/
def pyInt (b : Bool) : ℤ :=
  if b then 1 else 0

theorem foldl_dictDel_eq_filter :
    ∀ (ks : List String) (s : Store),
      ks.foldl dictDel s = s.filter (fun p => !(decide (p.1 ∈ ks))) := by
  intro ks
  induction ks with
  | nil =>
    intro s
    simp
  | cons k ks ih =>
    intro s
    simp only [List.foldl_cons]
    rw [ih (dictDel s k)]
    unfold dictDel
    rw [List.filter_filter]
    refine List.filter_congr ?_
    intro p _
    by_cases h1 : p.1 = k
    · subst h1; simp
    · by_cases h2 : p.1 ∈ ks <;> simp [h1, h2]

theorem mem_delKeys_iff (store : Store) (d : ℤ)
    (hnd : (store.map Prod.fst).Nodup)
    (p : String × EmbeddingRecord) (hp : p ∈ store) :
    p.1 ∈ (store.filter (fun q => q.2.document_id == d)).map Prod.fst
      ↔ p.2.document_id = d := by
  constructor
  · intro h
    obtain ⟨q, hq, hqp⟩ := List.mem_map.mp h
    have hqs : q ∈ store := List.mem_of_mem_filter hq
    have hqd : q.2.document_id = d := by
      have := List.of_mem_filter hq
      exact beq_iff_eq.mp this
    have : q = p := List.inj_on_of_nodup_map hnd hqs hp hqp
    rw [← this]
    exact hqd
  · intro h
    refine List.mem_map.mpr ⟨p, ?_, rfl⟩
    exact List.mem_filter.mpr ⟨hp, beq_iff_eq.mpr h⟩

/-- **C5 (amended).** `delete_document_chunks` removes exactly the records
whose `document_id` matches, returns `True` iff at least one record was
removed (a boolean flag, not the removal count), and deleting a document
with zero stored records is a no-op returning `False`. -/
theorem delete_document_chunks_behavior (store : Store) (d : ℤ)
    (hnd : (store.map Prod.fst).Nodup) :
    (delete_document_chunks store d).1
        = store.filter (fun p => !(p.2.document_id == d)) ∧
    ((delete_document_chunks store d).2 = true ↔ ∃ p ∈ store, p.2.document_id = d) ∧
    ((∀ p ∈ store, ¬ p.2.document_id = d) →
      delete_document_chunks store d = (store, false)) := by
  refine ⟨?_, ?_, ?_⟩
  · show ((store.filter (fun q => q.2.document_id == d)).map Prod.fst).foldl dictDel store
        = store.filter (fun p => !(p.2.document_id == d))
    rw [foldl_dictDel_eq_filter]
    refine List.filter_congr ?_
    intro p hp
    by_cases h : p.2.document_id = d
    · have hmem := (mem_delKeys_iff store d hnd p hp).mpr h
      rw [decide_eq_true hmem, beq_iff_eq.mpr h]
    · have hnmem : ¬ p.1 ∈ (store.filter (fun q => q.2.document_id == d)).map Prod.fst := by
        intro hmem
        exact h ((mem_delKeys_iff store d hnd p hp).mp hmem)
      rw [decide_eq_false hnmem, beq_eq_false_iff_ne.mpr h]
  · show decide (0 < ((store.filter (fun q => q.2.document_id == d)).map Prod.fst).length) = true
        ↔ ∃ p ∈ store, p.2.document_id = d
    rw [decide_eq_true_eq, List.length_map]
    constructor
    · intro h
      obtain ⟨q, hq⟩ := List.exists_mem_of_length_pos h
      exact ⟨q, List.mem_of_mem_filter hq, beq_iff_eq.mp (List.mem_filter.mp hq).2⟩
    · intro ⟨p, hp, hd⟩
      have : p ∈ store.filter (fun q => q.2.document_id == d) :=
        List.mem_filter.mpr ⟨hp, beq_iff_eq.mpr hd⟩
      exact List.length_pos.mpr (List.ne_nil_of_mem this)
  · intro hall
    have hfil : store.filter (fun q => q.2.document_id == d) = [] := by
      rw [List.filter_eq_nil_iff]
      intro p hp
      simp only [beq_iff_eq]
      intro hne
      exact hall p hp hne
    simp [delete_document_chunks, hfil]

/-- Witness for C5: deleting document 1 from a store holding only a record
of document 2 is a no-op returning `False`. -/
theorem delete_document_chunks_behavior_witness :
    (([(mkChunkId 2 0, recordOfChunk (testChunk 2 0) [])].map Prod.fst).Nodup) ∧
    ((delete_document_chunks [(mkChunkId 2 0, recordOfChunk (testChunk 2 0) [])] 1).1
        = [(mkChunkId 2 0, recordOfChunk (testChunk 2 0) [])].filter
            (fun p => !(p.2.document_id == 1)) ∧
      ((delete_document_chunks [(mkChunkId 2 0, recordOfChunk (testChunk 2 0) [])] 1).2 = true
          ↔ ∃ p ∈ [(mkChunkId 2 0, recordOfChunk (testChunk 2 0) [])], p.2.document_id = 1) ∧
      ((∀ p ∈ [(mkChunkId 2 0, recordOfChunk (testChunk 2 0) [])], ¬ p.2.document_id = 1) →
        delete_document_chunks [(mkChunkId 2 0, recordOfChunk (testChunk 2 0) [])] 1
          = ([(mkChunkId 2 0, recordOfChunk (testChunk 2 0) [])], false))) :=
  ⟨List.nodup_singleton _,
    delete_document_chunks_behavior [(mkChunkId 2 0, recordOfChunk (testChunk 2 0) [])] 1
      (List.nodup_singleton _)⟩

/-- A store holding two records of document 1, used to refute the original
reading of C5. -/
def c5Store : Store :=
  [(mkChunkId 1 0, recordOfChunk (testChunk 1 0) []),
   (mkChunkId 1 1, recordOfChunk (testChunk 1 1) [])]

/-- **C5 (counterexample).** Deleting document 1 from a store with two of
its records removes both but returns the boolean `True`, whose integer
value 1 differs from the removal count 2 — the function does not return the
number of records removed. -/
theorem delete_document_chunks_count_cx :
    (delete_document_chunks c5Store 1).1 = [] ∧
    (delete_document_chunks c5Store 1).2 = true ∧
    c5Store.length = 2 ∧
    pyInt (delete_document_chunks c5Store 1).2 ≠ 2 := by
  refine ⟨?_, rfl, rfl, by decide⟩
  rfl

/-! ## Claim C1: search_similar_chunks

`search_similar_chunks` embeds the query via the embedding capability (the
`query_embedding` argument below), scores every stored record of the
requested document with `_cosine_similarity`, sorts with Python's stable
`list.sort(key=..., reverse=True)` — modelled by a stable insertion sort
descending on the similarity — and returns the first `num_results`
formatted entries. -/

/-- `sum(a * b for a, b in zip(vec1, vec2))`. -/
noncomputable def dotList (v1 v2 : List ℝ) : ℝ :=
  (List.zipWith (fun a b => a * b) v1 v2).sum

/-- `math.sqrt(sum(a * a for a in vec))`. -/
noncomputable def magnitude (v : List ℝ) : ℝ :=
  Real.sqrt ((v.map (fun a => a * a)).sum)

/-- `VectorStore._cosine_similarity` (vector_store.py lines 142-153),
including the zero-magnitude guard. -/
noncomputable def cosine_similarity (v1 v2 : List ℝ) : ℝ :=
  haveI := Classical.propDecidable (magnitude v1 = 0 ∨ magnitude v2 = 0)
  if magnitude v1 = 0 ∨ magnitude v2 = 0 then 0
  else dotList v1 v2 / (magnitude v1 * magnitude v2)

/-- An element of the `similarities` list built in `search_similar_chunks`
(lines 107-116). -/
structure SearchHit where
  id : String
  similarity : ℝ
  data : EmbeddingRecord

/-- A formatted search result (lines 123-133). -/
structure SimilarChunk where
  id : String
  text : String
  similarity : ℝ
  chunk_index : ℤ
  page_numbers : List ℤ
  token_count : ℤ

/-- The comparison used by `similarities.sort(key=lambda x: x['similarity'],
reverse=True)`: `a` may precede `b` iff `b`'s similarity is not larger. -/
def hitLE (a b : SearchHit) : Prop :=
  b.similarity ≤ a.similarity

instance : IsTotal SearchHit hitLE :=
  ⟨fun a b => le_total b.similarity a.similarity⟩

instance : IsTrans SearchHit hitLE :=
  ⟨fun _ _ _ h1 h2 => le_trans h2 h1⟩

noncomputable instance : DecidableRel hitLE :=
  fun _ _ => Classical.propDecidable _

/-- The `similarities` list: one scored hit per stored record whose
`document_id` matches (lines 107-116), in store iteration order. -/
noncomputable def searchCandidates (store : Store) (query_embedding : List ℝ)
    (document_id : ℤ) : List SearchHit :=
  (store.filter (fun p => p.2.document_id == document_id)).map
    (fun p => { id := p.1
                similarity := cosine_similarity query_embedding p.2.embedding
                data := p.2 })

/-- Formatting of one result entry (lines 124-133). -/
def formatHit (r : SearchHit) : SimilarChunk :=
  { id := r.id
    text := r.data.text
    similarity := r.similarity
    chunk_index := r.data.chunk_index
    page_numbers := r.data.page_numbers
    token_count := r.data.token_count }

/-- `VectorStore.search_similar_chunks` (vector_store.py lines 93-140).
Python's `list.sort` is a stable sort; a stable sort's output is exactly the
output of insertion sort with the "not larger" comparison, so the model
sorts `similarities` with `List.insertionSort hitLE`. -/
noncomputable def search_similar_chunks (store : Store) (query_embedding : List ℝ)
    (document_id : ℤ) (num_results : ℕ) : List SimilarChunk :=
  let similarities := searchCandidates store query_embedding document_id
  let sorted := List.insertionSort hitLE similarities
  let top_results := sorted.take num_results
  top_results.map formatHit

theorem filter_sim_orderedInsert (s : ℝ) (a : SearchHit) :
    ∀ L : List SearchHit,
      (List.orderedInsert hitLE a L).filter (fun h => decide (h.similarity = s))
        = if a.similarity = s
          then a :: L.filter (fun h => decide (h.similarity = s))
          else L.filter (fun h => decide (h.similarity = s)) := by
  intro L
  induction L with
  | nil =>
    by_cases hs : a.similarity = s <;>
      simp [List.orderedInsert, List.filter, hs]
  | cons b L ih =>
    by_cases hab : hitLE a b
    · rw [List.orderedInsert, if_pos hab]
      by_cases hs : a.similarity = s <;>
        simp [List.filter, hs]
    · rw [List.orderedInsert, if_neg hab]
      have hblt : a.similarity < b.similarity :=
        not_le.mp (fun hle => hab hle)
      simp only [List.filter_cons]
      rw [ih]
      by_cases hs : a.similarity = s
      · have hbs : ¬ b.similarity = s := by
          intro hb
          rw [hs] at hblt
          rw [hb] at hblt
          exact lt_irrefl s hblt
        simp [hs, hbs]
      · simp [hs]

theorem filter_sim_insertionSort (s : ℝ) :
    ∀ L : List SearchHit,
      (List.insertionSort hitLE L).filter (fun h => decide (h.similarity = s))
        = L.filter (fun h => decide (h.similarity = s)) := by
  intro L
  induction L with
  | nil => rfl
  | cons a L ih =>
    rw [List.insertionSort, filter_sim_orderedInsert]
    by_cases hs : a.similarity = s
    · rw [if_pos hs, ih]
      simp [List.filter, hs]
    · rw [if_neg hs, ih]
      simp [List.filter, hs]

/-- **C1 (amended).** For every store, query vector, document id and result
count: `search_similar_chunks` scores only the stored records whose
`document_id` matches and every returned entry stems from such a record;
the result is sorted in descending order of cosine similarity; it has
exactly `min k (number of records of that document)` entries; and ties are
kept in store (insertion) order — stably: within each similarity class the
sorted candidate order equals the store order — rather than re-ordered by
chunk index. -/
theorem search_ranking_behavior (store : Store) (q : List ℝ) (d : ℤ) (k : ℕ) :
    (search_similar_chunks store q d k).length
        = min k (store.filter (fun p => p.2.document_id == d)).length ∧
    (∀ h ∈ search_similar_chunks store q d k,
      ∃ p ∈ store, p.2.document_id = d ∧ h.id = p.1 ∧
        h.text = p.2.text ∧ h.chunk_index = p.2.chunk_index ∧
        h.similarity = cosine_similarity q p.2.embedding) ∧
    List.Pairwise (fun a b : SimilarChunk => b.similarity ≤ a.similarity)
      (search_similar_chunks store q d k) ∧
    (∀ s : ℝ,
      (List.insertionSort hitLE (searchCandidates store q d)).filter
          (fun h => decide (h.similarity = s))
        = (searchCandidates store q d).filter (fun h => decide (h.similarity = s))) := by
  have hunfold : search_similar_chunks store q d k
      = ((List.insertionSort hitLE (searchCandidates store q d)).take k).map formatHit := rfl
  refine ⟨?_, ?_, ?_, fun s => filter_sim_insertionSort s _⟩
  · rw [hunfold, List.length_map, List.length_take,
      (List.perm_insertionSort hitLE (searchCandidates store q d)).length_eq]
    simp [searchCandidates]
  · intro h hh
    rw [hunfold] at hh
    obtain ⟨r, hr, hfmt⟩ := List.mem_map.mp hh
    have hr1 : r ∈ List.insertionSort hitLE (searchCandidates store q d) :=
      List.mem_of_mem_take hr
    have hr2 : r ∈ searchCandidates store q d :=
      (List.perm_insertionSort hitLE (searchCandidates store q d)).mem_iff.mp hr1
    obtain ⟨p, hp, hpr⟩ := List.mem_map.mp hr2
    refine ⟨p, List.mem_of_mem_filter hp, ?_, ?_, ?_, ?_, ?_⟩
    · exact beq_iff_eq.mp (List.mem_filter.mp hp).2
    · rw [← hfmt, ← hpr]; rfl
    · rw [← hfmt, ← hpr]; rfl
    · rw [← hfmt, ← hpr]; rfl
    · rw [← hfmt, ← hpr]; rfl
  · have hsorted : List.Pairwise hitLE
        (List.insertionSort hitLE (searchCandidates store q d)) :=
      List.sorted_insertionSort hitLE (searchCandidates store q d)
    have htake : List.Pairwise hitLE
        ((List.insertionSort hitLE (searchCandidates store q d)).take k) :=
      hsorted.sublist (List.take_sublist k _)
    rw [hunfold, List.pairwise_map]
    exact htake.imp (fun hab => hab)

/-- A store of document 1 in which the record with chunk index 2 was
inserted before the record with chunk index 1. -/
def c1Store : Store :=
  [(mkChunkId 1 2, recordOfChunk (testChunk 1 2) []),
   (mkChunkId 1 1, recordOfChunk (testChunk 1 1) [])]

/-- The scored hit for the first record of `c1Store` (empty embeddings give
cosine similarity 0 through the zero-magnitude guard). -/
noncomputable def c1HitA : SearchHit :=
  ⟨mkChunkId 1 2, cosine_similarity [] [], recordOfChunk (testChunk 1 2) []⟩

/-- The scored hit for the second record of `c1Store`. -/
noncomputable def c1HitB : SearchHit :=
  ⟨mkChunkId 1 1, cosine_similarity [] [], recordOfChunk (testChunk 1 1) []⟩

/-- **C1 (counterexample).** On `c1Store` both records of document 1 score
the same similarity 0, yet `search_similar_chunks` returns chunk index 2
before chunk index 1 — the tie is kept in store insertion order, not broken
by ascending chunk index as the claim states. -/
theorem search_tie_order_cx :
    (search_similar_chunks c1Store [] 1 3).map (fun h => h.similarity) = [0, 0] ∧
    (search_similar_chunks c1Store [] 1 3).map (fun h => h.chunk_index) = [2, 1] ∧
    ¬ List.Sorted (· ≤ ·)
        ((search_similar_chunks c1Store [] 1 3).map (fun h => h.chunk_index)) := by
  have hcand : searchCandidates c1Store [] 1 = [c1HitA, c1HitB] := rfl
  have hAB : hitLE c1HitA c1HitB := le_of_eq rfl
  have hsorteq : List.insertionSort hitLE (searchCandidates c1Store [] 1)
      = [c1HitA, c1HitB] := by
    rw [hcand]
    show List.orderedInsert hitLE c1HitA [c1HitB] = _
    rw [List.orderedInsert, if_pos hAB]
  have hres : search_similar_chunks c1Store [] 1 3 = [formatHit c1HitA, formatHit c1HitB] := by
    show ((List.insertionSort hitLE (searchCandidates c1Store [] 1)).take 3).map formatHit = _
    rw [hsorteq]
    rfl
  have hsim : cosine_similarity ([] : List ℝ) [] = 0 := by
    unfold cosine_similarity
    rw [if_pos]
    exact Or.inl (by simp [magnitude])
  refine ⟨?_, ?_, ?_⟩
  · rw [hres]
    show [cosine_similarity ([] : List ℝ) [], cosine_similarity ([] : List ℝ) []] = [0, 0]
    rw [hsim]
  · rw [hres]
    rfl
  · rw [hres]
    show ¬ List.Sorted (· ≤ ·) [(2 : ℤ), 1]
    intro hsorted
    have h21 : (2 : ℤ) ≤ 1 := (List.pairwise_cons.mp hsorted).1 1 (by simp)
    norm_num at h21

/-! ## Claim C8: generate_answer degrades instead of raising

`LLMService.generate_answer` (llm_service.py lines 30-71) wraps its whole
body in `try/except Exception`.  The body — prompt construction, the chat
completion call and `json.loads` of the reply — is modelled by the
`attempt` argument: `Except.ok` carries the parsed payload, `Except.error`
carries the message of whatever exception was raised inside the `try`. -/

/-- One formatted source entry (`_format_sources`, llm_service.py
lines 124-138). -/
structure SourceInfo where
  chunk_index : ℤ
  page_numbers : List ℤ
  text_preview : String
  similarity : ℝ
  token_count : ℤ

/-- Python `round(x, 3)`.  (Mathlib's `round` rounds half away from zero
where CPython rounds half to even; no claim here depends on exact ties.) -/
noncomputable def pyRound3 (x : ℝ) : ℝ :=
  (round (x * 1000) : ℤ) / 1000

/-- `_format_sources`: preview is the first 200 characters (plus an
ellipsis when truncated), similarity is rounded to 3 decimals. -/
noncomputable def format_sources (chunks : List SimilarChunk) : List SourceInfo :=
  chunks.map (fun c =>
    { chunk_index := c.chunk_index
      page_numbers := c.page_numbers
      text_preview :=
        if 200 < c.text.data.length
        then String.mk (c.text.data.take 200) ++ "..."
        else c.text
      similarity := pyRound3 c.similarity
      token_count := c.token_count })

/-- The dict parsed from a successful LLM JSON reply, with the fields the
callers read. -/
structure GenPayload where
  answer : String
  confidence : ℝ
  reasoning : String

/-- The dict returned by `generate_answer`. -/
structure AnswerResult where
  answer : String
  confidence : ℝ
  reasoning : Option String
  sources : List SourceInfo

/-- `LLMService.generate_answer`: on success, the parsed payload with the
formatted sources attached; on any exception inside the `try`, the fallback
dict with confidence 0.0 and empty sources.  The function is total — no
exception escapes. -/
noncomputable def generate_answer (_question : String) (context_chunks : List SimilarChunk)
    (_document_title : String) (attempt : Except String GenPayload) : AnswerResult :=
  match attempt with
  | .ok r =>
    { answer := r.answer
      confidence := r.confidence
      reasoning := some r.reasoning
      sources := format_sources context_chunks }
  | .error e =>
    { answer := "I apologize, but I encountered an error while processing your question: " ++ e
      confidence := 0
      reasoning := none
      sources := [] }

/-- **C8.** `generate_answer` is a total function of its inputs (no
exception reaches the caller), and whenever the wrapped body fails — for
every question, title, chunk list and error — the result is the degraded
fallback: confidence 0 and an empty sources list. -/
theorem generate_answer_degrades (q t : String) (cs : List SimilarChunk) (e : String) :
    (generate_answer q cs t (Except.error e)).confidence = 0 ∧
    (generate_answer q cs t (Except.error e)).sources = [] :=
  ⟨rfl, rfl⟩

/-! ## The chunker (documents/processing.py)

`DocumentProcessor` uses the external `tiktoken` tokenizer, modelled as an
abstract pair of `encode`/`decode` maps; for concrete evaluations the file
instantiates it with the character tokenizer `charTok` (one token per
character, `decode` inverse to `encode`).  `chunk_size` and
`chunk_overlap` are the `CHUNK_SIZE`/`CHUNK_OVERLAP` settings. -/

/-- An abstract tokenizer (the `tiktoken` encoding object). -/
structure Tokenizer where
  encode : String → List ℕ
  decode : List ℕ → String

/-- The concrete tokenizer used for evaluations: one token per character. -/
def charTok : Tokenizer where
  encode s := s.data.map Char.toNat
  decode l := String.mk (l.map Char.ofNat)

/-- Python `\s` (ASCII whitespace). -/
def pyIsSpace (c : Char) : Bool :=
  c == ' ' || c == '\t' || c == '\n' || c == '\r' ||
    c == Char.ofNat 11 || c == Char.ofNat 12

/-- `re.sub(r'\s+', ' ', text)`: collapse every maximal whitespace run into
one space.  Every step consumes at least one character, so fuel equal to
the input length (as supplied by `collapseWS`) never runs out. -/
def collapseWSFuel : ℕ → List Char → List Char
  | 0, _ => []
  | _, [] => []
  | fuel + 1, c :: cs =>
    if pyIsSpace c then ' ' :: collapseWSFuel fuel (cs.dropWhile pyIsSpace)
    else c :: collapseWSFuel fuel cs

/-- `re.sub(r'\s+', ' ', text)`. -/
def collapseWS (l : List Char) : List Char :=
  collapseWSFuel l.length l

/-- Numeric value of a run of decimal digit characters. -/
def digitsVal (ds : List Char) : ℕ :=
  ds.foldl (fun a c => 10 * a + (c.toNat - 48)) 0

/-- Try to read the regex `\[Page (\d+)\]` at the head of the character
list; on a match return the page number and the remaining characters. -/
def readPageMarker (l : List Char) : Option (ℕ × List Char) :=
  match l with
  | c0 :: c1 :: c2 :: c3 :: c4 :: c5 :: rest =>
    if c0 = '[' ∧ c1 = 'P' ∧ c2 = 'a' ∧ c3 = 'g' ∧ c4 = 'e' ∧ c5 = ' ' then
      let ds := rest.takeWhile Char.isDigit
      let rest' := rest.dropWhile Char.isDigit
      if ds.isEmpty then none
      else
        match rest' with
        | ']' :: r => some (digitsVal ds, r)
        | _ => none
    else none
  | _ => none

theorem readPageMarker_rest_lt (l : List Char) (n : ℕ) (r : List Char)
    (h : readPageMarker l = some (n, r)) : r.length < l.length := by
  match l with
  | [] => simp [readPageMarker] at h
  | [c0] => simp [readPageMarker] at h
  | [c0, c1] => simp [readPageMarker] at h
  | [c0, c1, c2] => simp [readPageMarker] at h
  | [c0, c1, c2, c3] => simp [readPageMarker] at h
  | [c0, c1, c2, c3, c4] => simp [readPageMarker] at h
  | c0 :: c1 :: c2 :: c3 :: c4 :: c5 :: rest =>
    simp only [readPageMarker] at h
    split at h
    · split at h
      · exact absurd h (by simp)
      · split at h
        · rename_i r' heq
          have hr : r = r' := by
            injection h with h1
            injection h1 with _ h2
            exact h2.symm
          subst hr
          have h1 : r.length + 1 = (rest.dropWhile Char.isDigit).length := by
            rw [heq, List.length_cons]
          have h2 : (rest.dropWhile Char.isDigit).length ≤ rest.length :=
            (List.dropWhile_sublist _).length_le
          simp only [List.length_cons]
          omega
        · exact absurd h (by simp)
    · exact absurd h (by simp)

/-- `re.sub(r'\[Page \d+\]', '', text)`: drop every non-overlapping match,
scanning left to right.  A match consumes at least one character
(`readPageMarker_rest_lt`), so fuel equal to the input length suffices. -/
def removePageMarkersFuel : ℕ → List Char → List Char
  | 0, _ => []
  | _, [] => []
  | fuel + 1, c :: cs =>
    match readPageMarker (c :: cs) with
    | some (_, r) => removePageMarkersFuel fuel r
    | none => c :: removePageMarkersFuel fuel cs

/-- `re.sub(r'\[Page \d+\]', '', text)`. -/
def removePageMarkers (l : List Char) : List Char :=
  removePageMarkersFuel l.length l

/-- `re.findall(r'\[Page (\d+)\]', text)`: the page numbers of every
non-overlapping match, scanning left to right, fuelled like
`removePageMarkersFuel`. -/
def findPageMarkersFuel : ℕ → List Char → List ℕ
  | 0, _ => []
  | _, [] => []
  | fuel + 1, c :: cs =>
    match readPageMarker (c :: cs) with
    | some (n, r) => n :: findPageMarkersFuel fuel r
    | none => findPageMarkersFuel fuel cs

/-- `re.findall(r'\[Page (\d+)\]', text)`. -/
def findPageMarkers (l : List Char) : List ℕ :=
  findPageMarkersFuel l.length l

/-- Python `str.strip()` on a character list. -/
def pyStrip (l : List Char) : List Char :=
  (((l.dropWhile pyIsSpace).reverse).dropWhile pyIsSpace).reverse

/-- Python `str.strip()` on a string. -/
def pyStripS (s : String) : String :=
  String.mk (pyStrip s.data)

/-- `DocumentProcessor._clean_text` (processing.py lines 139-145): collapse
whitespace, remove the `[Page N]` markers, strip. -/
def clean_text (text : String) : String :=
  String.mk (pyStrip (removePageMarkers (collapseWS text.data)))

/-- A sentence terminator of `re.split(r'[.!?]+', text)`. -/
def isTerm (c : Char) : Bool :=
  c == '.' || c == '!' || c == '?'

/-- `re.split(r'[.!?]+', text)` on a character list: the pieces between
maximal terminator runs (empty pieces included, as in `re.split`).  Each
step consumes at least one character, so fuel equal to the input length (as
supplied by `splitTermRuns`) never runs out. -/
def splitTermRunsFuel : ℕ → List Char → List (List Char)
  | 0, _ => [[]]
  | _, [] => [[]]
  | fuel + 1, c :: cs =>
    if isTerm c then [] :: splitTermRunsFuel fuel (cs.dropWhile isTerm)
    else
      match splitTermRunsFuel fuel cs with
      | [] => [[c]]
      | s :: ss => (c :: s) :: ss

/-- `re.split(r'[.!?]+', text)`. -/
def splitTermRuns (l : List Char) : List (List Char) :=
  splitTermRunsFuel l.length l

/-- `DocumentProcessor._split_into_sentences` (lines 147-151): split on
terminator runs, strip each piece, keep the non-empty ones. -/
def split_into_sentences (text : String) : List String :=
  ((splitTermRuns text.data).map (fun s => String.mk (pyStrip s))).filter
    (fun s => !(s == ""))

/-- Python `tokens[-k:]` for a non-negative `k` (note `tokens[-0:]` is the
whole list). -/
def pyLastSlice (k : ℕ) (l : List ℕ) : List ℕ :=
  if k = 0 then l else l.drop (l.length - k)

/-- `DocumentProcessor._get_overlap_text` (lines 153-160). -/
def get_overlap_text (tok : Tokenizer) (chunk_overlap : ℕ) (text : String) : String :=
  let tokens := tok.encode text
  if tokens.length ≤ chunk_overlap then text
  else tok.decode (pyLastSlice chunk_overlap tokens)

/-- `DocumentProcessor._extract_page_numbers` (lines 175-178). -/
def extract_page_numbers (text : String) : List ℤ :=
  let ms := findPageMarkers text.data
  if ms.isEmpty then [1] else ms.map (fun n => (n : ℤ))

/-- `DocumentProcessor._create_chunk` (lines 162-173). -/
def create_chunk (tok : Tokenizer) (text : String) (chunk_index : ℤ)
    (document_id : ℤ) : Chunk :=
  { text := text
    chunk_index := chunk_index
    page_numbers := extract_page_numbers text
    token_count := ((tok.encode text).length : ℤ)
    document_id := document_id }

/-- The loop state of `chunk_text`: emitted chunks, current buffer, running
token total, next chunk index. -/
structure ChunkState where
  chunks : List Chunk
  current_chunk : String
  current_tokens : ℕ
  chunk_index : ℕ

/-- One iteration of the sentence loop of `chunk_text` (lines 109-127):
close the buffer when appending the sentence would exceed `chunk_size` and
the buffer is non-empty, seeding the next buffer with the overlap tail;
otherwise append the sentence (space-joined) and add its token count. -/
def chunkStep (tok : Tokenizer) (chunk_size chunk_overlap : ℕ) (document_id : ℤ)
    (st : ChunkState) (sentence : String) : ChunkState :=
  let sentence_tokens := (tok.encode sentence).length
  if chunk_size < st.current_tokens + sentence_tokens ∧ st.current_chunk ≠ "" then
    let closed := create_chunk tok (pyStripS st.current_chunk) st.chunk_index document_id
    let overlap_text := get_overlap_text tok chunk_overlap st.current_chunk
    let new_current := overlap_text ++ " " ++ sentence
    { chunks := st.chunks ++ [closed]
      current_chunk := new_current
      current_tokens := (tok.encode new_current).length
      chunk_index := st.chunk_index + 1 }
  else
    { st with
      current_chunk :=
        if st.current_chunk ≠ "" then st.current_chunk ++ " " ++ sentence else sentence
      current_tokens := st.current_tokens + sentence_tokens }

/-- `DocumentProcessor.chunk_text` (lines 93-137): clean, sentence-split,
run the greedy loop, and close the final buffer if it has non-whitespace
content. -/
def chunk_text (tok : Tokenizer) (chunk_size chunk_overlap : ℕ) (text : String)
    (document_id : ℤ) : List Chunk :=
  let cleaned := clean_text text
  let sentences := split_into_sentences cleaned
  let st := sentences.foldl (chunkStep tok chunk_size chunk_overlap document_id)
    { chunks := [], current_chunk := "", current_tokens := 0, chunk_index := 0 }
  if pyStripS st.current_chunk ≠ "" then
    st.chunks ++ [create_chunk tok (pyStripS st.current_chunk) st.chunk_index document_id]
  else st.chunks

/-! ## Stripping lemmas -/

theorem dropWhile_idem (p : Char → Bool) (l : List Char) :
    (l.dropWhile p).dropWhile p = l.dropWhile p := by
  induction l with
  | nil => rfl
  | cons c cs ih =>
    by_cases h : p c
    · simp [List.dropWhile_cons, h, ih]
    · simp [List.dropWhile_cons, h]

theorem dropWhile_pyStripAux (p : Char → Bool) (l₀ : List Char)
    (h : l₀.dropWhile p = l₀) :
    ((l₀.reverse.dropWhile p).reverse).dropWhile p
      = (l₀.reverse.dropWhile p).reverse := by
  cases l₀ with
  | nil => rfl
  | cons c cs =>
    have hc : p c = false := by
      cases hb : p c with
      | false => rfl
      | true =>
        rw [List.dropWhile_cons, if_pos hb] at h
        have h1 : (cs.dropWhile p).length ≤ cs.length := (List.dropWhile_sublist _).length_le
        have h2 := congrArg List.length h
        simp only [List.length_cons] at h2
        omega
    rw [List.reverse_cons, List.dropWhile_append]
    by_cases hemp : (cs.reverse.dropWhile p).isEmpty
    · rw [if_pos hemp]
      simp [List.dropWhile_cons, hc]
    · rw [if_neg hemp]
      rw [List.reverse_append]
      simp [List.dropWhile_cons, hc]

theorem pyStrip_idem (l : List Char) : pyStrip (pyStrip l) = pyStrip l := by
  unfold pyStrip
  have hA : (((l.dropWhile pyIsSpace).reverse.dropWhile pyIsSpace).reverse).dropWhile pyIsSpace
      = ((l.dropWhile pyIsSpace).reverse.dropWhile pyIsSpace).reverse :=
    dropWhile_pyStripAux pyIsSpace (l.dropWhile pyIsSpace) (dropWhile_idem _ _)
  rw [hA, List.reverse_reverse, dropWhile_idem]

/-- Every sentence produced by `_split_into_sentences` is already stripped
and non-empty. -/
theorem pyStripS_of_sentence (t s : String) (hs : s ∈ split_into_sentences t) :
    pyStripS s = s ∧ s ≠ "" := by
  unfold split_into_sentences at hs
  have hmem := List.mem_filter.mp hs
  obtain ⟨l, _, hl⟩ := List.mem_map.mp hmem.1
  constructor
  · rw [← hl]
    show String.mk (pyStrip (String.mk (pyStrip l)).data) = _
    rw [show (String.mk (pyStrip l)).data = pyStrip l from rfl, pyStrip_idem]
  · intro hempty
    rw [hempty] at hmem
    simp at hmem

/-! ## Claim C2: the chunk-size bound -/

/-- **C2 (counterexample).** With `chunk_size = 10` and `chunk_overlap = 5`
(character tokens), no single sentence of the input exceeds 10 tokens, yet
the overlap-seeded middle chunk has 14 tokens — the bound fails without any
oversized single sentence. -/
theorem chunk_size_limit_cx :
    (∀ s ∈ split_into_sentences (clean_text "abcdefgh. ijklmnop. qr."),
        (charTok.encode s).length ≤ 10) ∧
    ∃ c ∈ chunk_text charTok 10 5 "abcdefgh. ijklmnop. qr." 1,
      10 < c.token_count := by
  decide

/-- **C2 (amended).** When the whole text yields a single sentence, the
sentence is emitted whole as the only chunk, whatever its token count —
in particular a single sentence exceeding `chunk_size` is never truncated,
because the overflow check fires only when the running buffer is
non-empty. -/
theorem single_sentence_emitted_whole (tok : Tokenizer) (chunk_size chunk_overlap : ℕ)
    (text : String) (document_id : ℤ) (s : String)
    (h : split_into_sentences (clean_text text) = [s]) :
    chunk_text tok chunk_size chunk_overlap text document_id
      = [create_chunk tok s 0 document_id] := by
  obtain ⟨hstrip, hne⟩ := pyStripS_of_sentence (clean_text text) s
    (by rw [h]; exact List.mem_singleton_self s)
  have h0 : chunk_text tok chunk_size chunk_overlap text document_id =
      (let st := (split_into_sentences (clean_text text)).foldl
          (chunkStep tok chunk_size chunk_overlap document_id)
          { chunks := [], current_chunk := "", current_tokens := 0, chunk_index := 0 };
        if pyStripS st.current_chunk ≠ "" then
          st.chunks ++ [create_chunk tok (pyStripS st.current_chunk) st.chunk_index document_id]
        else st.chunks) := rfl
  rw [h0, h]
  simp only [List.foldl_cons, List.foldl_nil]
  have hstep : chunkStep tok chunk_size chunk_overlap document_id
      { chunks := [], current_chunk := "", current_tokens := 0, chunk_index := 0 } s
      = { chunks := [], current_chunk := s,
          current_tokens := 0 + (tok.encode s).length, chunk_index := 0 } := by
    simp [chunkStep]
  rw [hstep]
  show (if pyStripS s ≠ "" then [] ++ [create_chunk tok (pyStripS s) 0 document_id] else [])
      = [create_chunk tok s 0 document_id]
  rw [hstrip, if_pos hne]
  simp

/-- Witness for the amended C2: the 12-character text is one sentence of 11
tokens, far above the chunk size 3, and is still emitted whole. -/
theorem single_sentence_emitted_whole_witness :
    split_into_sentences (clean_text "hello world.") = ["hello world"] ∧
    chunk_text charTok 3 1 "hello world." 0 = [create_chunk charTok "hello world" 0 0] :=
  ⟨by decide,
    single_sentence_emitted_whole charTok 3 1 "hello world." 0 "hello world" (by decide)⟩

/-! ## Claim C3: page numbers -/

/-- **C3.** `_clean_text` removes the `[Page N]` markers before any chunk is
built, so `_extract_page_numbers` never sees them: text extracted from page
2 is chunked with `page_numbers = [1]`, not `[2]` — the chunk's pages are
not recoverable from its `page_numbers`. -/
theorem chunk_page_numbers_lost :
    chunk_text charTok 500 50 "[Page 2] Hello world." 7
      = [create_chunk charTok "Hello world" 0 7] ∧
    (chunk_text charTok 500 50 "[Page 2] Hello world." 7).map (fun c => c.page_numbers)
      = [[1]] := by
  decide

/-! ## Claim C7: the overlap between consecutive chunks -/

theorem append_space_ne (a b : String) : a ++ " " ++ b ≠ "" := by
  intro h
  have hlen := congrArg String.length h
  rw [String.length_append, String.length_append] at hlen
  have hone : (" " : String).length = 1 := rfl
  rw [hone] at hlen
  simp at hlen

/-- The relation between two consecutive chunks: the earlier chunk is the
stripped content of some buffer, and the later chunk's text is that
buffer's decoded `chunkOverlap`-token tail, space-joined to further
sentence text and finally stripped. -/
def overlapRel (tok : Tokenizer) (chunk_overlap : ℕ) (c c' : Chunk) : Prop :=
  ∃ buf rest : String,
    c.text = pyStripS buf ∧
    c'.text = pyStripS (get_overlap_text tok chunk_overlap buf ++ " " ++ rest)

/-- Loop invariant of `chunk_text`: emitted chunks are chained by
`overlapRel`, and whenever a chunk has been emitted the current buffer is
the overlap tail of the last emitted chunk's buffer followed by sentence
text. -/
def ChunkInv (tok : Tokenizer) (chunk_overlap : ℕ) (st : ChunkState) : Prop :=
  List.Chain' (overlapRel tok chunk_overlap) st.chunks ∧
  (st.chunks = [] ∨
    ∃ lc buf rest, st.chunks.getLast? = some lc ∧ lc.text = pyStripS buf ∧
      st.current_chunk = get_overlap_text tok chunk_overlap buf ++ " " ++ rest)

theorem chunkStep_inv (tok : Tokenizer) (chunk_size chunk_overlap : ℕ)
    (document_id : ℤ) (st : ChunkState) (sentence : String)
    (h : ChunkInv tok chunk_overlap st) :
    ChunkInv tok chunk_overlap (chunkStep tok chunk_size chunk_overlap document_id st sentence) := by
  by_cases hcond : chunk_size < st.current_tokens + (tok.encode sentence).length ∧
      st.current_chunk ≠ ""
  · have hstep : chunkStep tok chunk_size chunk_overlap document_id st sentence =
        { chunks := st.chunks ++
            [create_chunk tok (pyStripS st.current_chunk) st.chunk_index document_id]
          current_chunk := get_overlap_text tok chunk_overlap st.current_chunk ++ " " ++ sentence
          current_tokens := (tok.encode
            (get_overlap_text tok chunk_overlap st.current_chunk ++ " " ++ sentence)).length
          chunk_index := st.chunk_index + 1 } := by
      unfold chunkStep
      rw [if_pos hcond]
    rw [hstep]
    constructor
    · rw [List.chain'_append]
      refine ⟨h.1, List.chain'_singleton _, ?_⟩
      intro x hx y hy
      simp only [List.head?_cons, Option.mem_def, Option.some.injEq] at hy
      rcases h.2 with hnil | ⟨lc, buf, rest, hlast, hlctext, hcur⟩
      · rw [hnil] at hx
        simp at hx
      · rw [hlast] at hx
        simp only [Option.mem_def, Option.some.injEq] at hx
        subst hx
        subst hy
        refine ⟨buf, rest, hlctext, ?_⟩
        show pyStripS st.current_chunk = _
        rw [hcur]
    · right
      refine ⟨create_chunk tok (pyStripS st.current_chunk) st.chunk_index document_id,
        st.current_chunk, sentence, ?_, rfl, rfl⟩
      exact List.getLast?_concat _
  · have hstep : chunkStep tok chunk_size chunk_overlap document_id st sentence =
        { st with
          current_chunk :=
            if st.current_chunk ≠ "" then st.current_chunk ++ " " ++ sentence else sentence
          current_tokens := st.current_tokens + (tok.encode sentence).length } := by
      unfold chunkStep
      rw [if_neg hcond]
    rw [hstep]
    constructor
    · exact h.1
    · rcases h.2 with hnil | ⟨lc, buf, rest, hlast, hlctext, hcur⟩
      · left
        exact hnil
      · right
        have hne : st.current_chunk ≠ "" := by
          rw [hcur]
          exact append_space_ne _ _

        refine ⟨lc, buf, rest ++ " " ++ sentence, hlast, hlctext, ?_⟩
        show (if st.current_chunk ≠ "" then st.current_chunk ++ " " ++ sentence else sentence) = _
        rw [if_pos hne, hcur]
        simp only [String.append_assoc]

/-- **C7 (amended).** Consecutive chunks of every `chunk_text` run are
related by `overlapRel`: chunk `i+1`'s text is exactly the decoded last
`chunkOverlap` tokens of the buffer whose stripped content is chunk `i`,
space-joined to the following sentence text and then stripped — token-level
seeding with no sentence realignment, exact only up to the final
stripping of leading/trailing whitespace and tokenizer re-encoding of the
seam. -/
theorem chunk_final_inv (tok : Tokenizer) (chunk_overlap : ℕ) (document_id : ℤ)
    (st : ChunkState) (hinv : ChunkInv tok chunk_overlap st) :
    List.Chain' (overlapRel tok chunk_overlap)
      (if pyStripS st.current_chunk ≠ "" then
        st.chunks ++ [create_chunk tok (pyStripS st.current_chunk) st.chunk_index document_id]
      else st.chunks) := by
  by_cases hfin : pyStripS st.current_chunk ≠ ""
  · rw [if_pos hfin]
    rw [List.chain'_append]
    refine ⟨hinv.1, List.chain'_singleton _, ?_⟩
    intro x hx y hy
    simp only [List.head?_cons, Option.mem_def, Option.some.injEq] at hy
    rcases hinv.2 with hnil | ⟨lc, buf, rest, hlast, hlctext, hcur⟩
    · rw [hnil] at hx
      simp at hx
    · rw [hlast] at hx
      simp only [Option.mem_def, Option.some.injEq] at hx
      subst hx
      subst hy
      refine ⟨buf, rest, hlctext, ?_⟩
      show pyStripS st.current_chunk = _
      rw [hcur]
  · rw [if_neg hfin]
    exact hinv.1

theorem chunk_overlap_structure (tok : Tokenizer) (chunk_size chunk_overlap : ℕ)
    (text : String) (document_id : ℤ) :
    List.Chain' (overlapRel tok chunk_overlap)
      (chunk_text tok chunk_size chunk_overlap text document_id) := by
  have hmain : ∀ (l : List String) (st : ChunkState), ChunkInv tok chunk_overlap st →
      ChunkInv tok chunk_overlap
        (l.foldl (chunkStep tok chunk_size chunk_overlap document_id) st) := by
    intro l
    induction l with
    | nil => intro st hst; exact hst
    | cons a l ih =>
      intro st hst
      exact ih _ (chunkStep_inv tok chunk_size chunk_overlap document_id st a hst)
  have hinv : ChunkInv tok chunk_overlap
      ((split_into_sentences (clean_text text)).foldl
        (chunkStep tok chunk_size chunk_overlap document_id)
        { chunks := [], current_chunk := "", current_tokens := 0, chunk_index := 0 }) :=
    hmain _ _ ⟨List.chain'_nil, Or.inl rfl⟩
  have h0 : chunk_text tok chunk_size chunk_overlap text document_id =
      (let st := (split_into_sentences (clean_text text)).foldl
          (chunkStep tok chunk_size chunk_overlap document_id)
          { chunks := [], current_chunk := "", current_tokens := 0, chunk_index := 0 };
        if pyStripS st.current_chunk ≠ "" then
          st.chunks ++ [create_chunk tok (pyStripS st.current_chunk) st.chunk_index document_id]
        else st.chunks) := rfl
  rw [h0]
  exact chunk_final_inv tok chunk_overlap document_id _ hinv

/-- **C7 (counterexample).** A run (character tokens, `chunk_size = 10`,
`chunk_overlap = 3`) produces chunks `"abcdef gh"` and `"gh xyz"`, but the
leading 3 tokens of the second chunk are `"gh "` while the trailing 3
tokens of the first are `" gh"` — the overlap tail starts with a space that
the final strip removes, so the claimed token-level equality fails. -/
theorem overlap_tokens_cx :
    (chunk_text charTok 10 3 "abcdef gh. xyz." 1).map (fun c => c.text)
      = ["abcdef gh", "gh xyz"] ∧
    (charTok.encode "gh xyz").take 3
      ≠ (charTok.encode "abcdef gh").drop ((charTok.encode "abcdef gh").length - 3) := by
  decide

/-! ## Injectivity of the decimal rendering used by `mkChunkId`

`mkChunkId` embeds `document_id` and `chunk_index` through `toString`;
distinct chunk indices give distinct keys because the decimal rendering of
a natural number is injective.  This is proved by evaluating the digit
string back to its value. -/

theorem digitsVal_foldl_init (l : List Char) (a : ℕ) :
    l.foldl (fun a c => 10 * a + (c.toNat - 48)) a = a * 10 ^ l.length + digitsVal l := by
  induction l generalizing a with
  | nil => simp [digitsVal]
  | cons c cs ih =>
    simp only [List.foldl_cons, List.length_cons]
    rw [ih (10 * a + (c.toNat - 48))]
    have hv : digitsVal (c :: cs) = (c.toNat - 48) * 10 ^ cs.length + digitsVal cs := by
      show List.foldl _ (10 * 0 + (c.toNat - 48)) cs = _
      rw [ih (10 * 0 + (c.toNat - 48))]
      ring_nf
    rw [hv]
    ring

theorem digitChar_val (d : ℕ) (h : d < 10) : (Nat.digitChar d).toNat - 48 = d := by
  interval_cases d <;> rfl

theorem toDigitsCore_val :
    ∀ (fuel n : ℕ) (acc : List Char), n < 10 ^ fuel →
      digitsVal (Nat.toDigitsCore 10 fuel n acc) = n * 10 ^ acc.length + digitsVal acc := by
  intro fuel
  induction fuel with
  | zero =>
    intro n acc h
    have hn : n = 0 := by simpa using h
    subst hn
    simp [Nat.toDigitsCore]
  | succ fuel ih =>
    intro n acc h
    show digitsVal
        (if n / 10 = 0 then Nat.digitChar (n % 10) :: acc
        else Nat.toDigitsCore 10 fuel (n / 10) (Nat.digitChar (n % 10) :: acc))
      = n * 10 ^ acc.length + digitsVal acc
    have hmod : n % 10 < 10 := Nat.mod_lt n (by norm_num)
    by_cases hdiv : n / 10 = 0
    · rw [if_pos hdiv]
      have hn : n < 10 := by omega
      show List.foldl _ (10 * 0 + ((Nat.digitChar (n % 10)).toNat - 48)) acc = _
      rw [digitChar_val (n % 10) hmod]
      rw [digitsVal_foldl_init]
      have : n % 10 = n := Nat.mod_eq_of_lt hn
      rw [this]
      ring_nf
    · rw [if_neg hdiv]
      have hlt : n / 10 < 10 ^ fuel := by
        rw [Nat.div_lt_iff_lt_mul (by norm_num : 0 < 10)]
        calc n < 10 ^ (fuel + 1) := h
          _ = 10 ^ fuel * 10 := by rw [pow_succ]
      rw [ih (n / 10) (Nat.digitChar (n % 10) :: acc) hlt]
      have hv : digitsVal (Nat.digitChar (n % 10) :: acc)
          = (n % 10) * 10 ^ acc.length + digitsVal acc := by
        show List.foldl _ (10 * 0 + ((Nat.digitChar (n % 10)).toNat - 48)) acc = _
        rw [digitChar_val (n % 10) hmod, digitsVal_foldl_init]
        ring_nf
      rw [hv, List.length_cons]
      have hsplit : n = 10 * (n / 10) + n % 10 := (Nat.div_add_mod n 10).symm
      calc n / 10 * 10 ^ (acc.length + 1) + ((n % 10) * 10 ^ acc.length + digitsVal acc)
          = (10 * (n / 10) + n % 10) * 10 ^ acc.length + digitsVal acc := by ring
        _ = n * 10 ^ acc.length + digitsVal acc := by rw [← hsplit]

theorem digitsVal_toDigits (n : ℕ) : digitsVal (Nat.toDigits 10 n) = n := by
  have hfuel : n < 10 ^ (n + 1) :=
    lt_of_lt_of_le (Nat.lt_two_pow n)
      (le_trans (Nat.pow_le_pow_left (by norm_num) n)
        (Nat.pow_le_pow_right (by norm_num) (Nat.le_succ n)))
  have := toDigitsCore_val (n + 1) n [] hfuel
  simpa [Nat.toDigits, digitsVal] using this

theorem natRepr_injective (m n : ℕ) (h : Nat.repr m = Nat.repr n) : m = n := by
  have hdata : Nat.toDigits 10 m = Nat.toDigits 10 n := by
    have := congrArg String.data h
    simpa [Nat.repr, List.asString] using this
  have := congrArg digitsVal hdata
  rwa [digitsVal_toDigits, digitsVal_toDigits] at this

theorem string_data_append (s t : String) : (s ++ t).data = s.data ++ t.data := rfl

theorem mkChunkId_nat_inj (d : ℤ) (a b : ℕ)
    (h : mkChunkId d (a : ℤ) = mkChunkId d (b : ℤ)) : a = b := by
  have hrepr : toString ((a : ℤ)) = toString ((b : ℤ)) := by
    have hd := congrArg String.data h
    simp only [mkChunkId, string_data_append] at hd
    have := List.append_cancel_left hd
    exact congrArg String.mk this
  have ha : toString ((a : ℤ)) = Nat.repr a := rfl
  have hb : toString ((b : ℤ)) = Nat.repr b := rfl
  rw [ha, hb] at hrepr
  exact natRepr_injective a b hrepr

/-! ## Chunk indices are dense and the document id uniform -/

/-- Loop invariant: emitted chunk indices are `0..n-1` in order, the
counter equals the number of emitted chunks, and every chunk carries the
requested document id. -/
def IdxInv (d : ℤ) (st : ChunkState) : Prop :=
  st.chunks.map (fun c => c.chunk_index) = (List.range st.chunks.length).map Int.ofNat ∧
  st.chunk_index = st.chunks.length ∧
  ∀ c ∈ st.chunks, c.document_id = d

theorem idx_extend (chunks : List Chunk) (c : Chunk)
    (h1 : chunks.map (fun c => c.chunk_index) = (List.range chunks.length).map Int.ofNat)
    (h2 : c.chunk_index = (chunks.length : ℤ)) :
    (chunks ++ [c]).map (fun c => c.chunk_index)
      = (List.range (chunks ++ [c]).length).map Int.ofNat := by
  rw [List.map_append, h1, List.length_append]
  simp only [List.map_cons, List.map_nil, List.length_cons, List.length_nil]
  rw [h2, List.range_succ, List.map_append]
  rfl

theorem chunkStep_idx_inv (tok : Tokenizer) (chunk_size chunk_overlap : ℕ)
    (document_id : ℤ) (st : ChunkState) (sentence : String)
    (h : IdxInv document_id st) :
    IdxInv document_id (chunkStep tok chunk_size chunk_overlap document_id st sentence) := by
  obtain ⟨h1, h2, h3⟩ := h
  by_cases hcond : chunk_size < st.current_tokens + (tok.encode sentence).length ∧
      st.current_chunk ≠ ""
  · have hstep : chunkStep tok chunk_size chunk_overlap document_id st sentence =
        { chunks := st.chunks ++
            [create_chunk tok (pyStripS st.current_chunk) st.chunk_index document_id]
          current_chunk := get_overlap_text tok chunk_overlap st.current_chunk ++ " " ++ sentence
          current_tokens := (tok.encode
            (get_overlap_text tok chunk_overlap st.current_chunk ++ " " ++ sentence)).length
          chunk_index := st.chunk_index + 1 } := by
      unfold chunkStep
      rw [if_pos hcond]
    rw [hstep]
    refine ⟨?_, ?_, ?_⟩
    · exact idx_extend _ _ h1 (by show (st.chunk_index : ℤ) = _; rw [h2])
    · show st.chunk_index + 1 = _
      rw [List.length_append, h2]
      rfl
    · intro c hc
      rcases List.mem_append.mp hc with hmem | hmem
      · exact h3 c hmem
      · rw [List.mem_singleton.mp hmem]
        rfl
  · have hstep : chunkStep tok chunk_size chunk_overlap document_id st sentence =
        { st with
          current_chunk :=
            if st.current_chunk ≠ "" then st.current_chunk ++ " " ++ sentence else sentence
          current_tokens := st.current_tokens + (tok.encode sentence).length } := by
      unfold chunkStep
      rw [if_neg hcond]
    rw [hstep]
    exact ⟨h1, h2, h3⟩

theorem chunk_final_idx (tok : Tokenizer) (document_id : ℤ) (st : ChunkState)
    (h : IdxInv document_id st) :
    (if pyStripS st.current_chunk ≠ "" then
        st.chunks ++ [create_chunk tok (pyStripS st.current_chunk) st.chunk_index document_id]
      else st.chunks).map (fun c => c.chunk_index)
      = (List.range (if pyStripS st.current_chunk ≠ "" then
          st.chunks ++ [create_chunk tok (pyStripS st.current_chunk) st.chunk_index document_id]
        else st.chunks).length).map Int.ofNat ∧
    ∀ c ∈ (if pyStripS st.current_chunk ≠ "" then
        st.chunks ++ [create_chunk tok (pyStripS st.current_chunk) st.chunk_index document_id]
      else st.chunks), c.document_id = document_id := by
  obtain ⟨h1, h2, h3⟩ := h
  by_cases hfin : pyStripS st.current_chunk ≠ ""
  · rw [if_pos hfin]
    constructor
    · exact idx_extend _ _ h1 (by show (st.chunk_index : ℤ) = _; rw [h2])
    · intro c hc
      rcases List.mem_append.mp hc with hmem | hmem
      · exact h3 c hmem
      · rw [List.mem_singleton.mp hmem]
        rfl
  · rw [if_neg hfin]
    exact ⟨h1, h3⟩

/-- Every `chunk_text` run emits chunk indices `0..N-1` in order, all with
the requested document id. -/
theorem chunk_text_idx (tok : Tokenizer) (chunk_size chunk_overlap : ℕ)
    (text : String) (document_id : ℤ) :
    (chunk_text tok chunk_size chunk_overlap text document_id).map (fun c => c.chunk_index)
      = (List.range (chunk_text tok chunk_size chunk_overlap text document_id).length).map
          Int.ofNat ∧
    ∀ c ∈ chunk_text tok chunk_size chunk_overlap text document_id,
      c.document_id = document_id := by
  have hmain : ∀ (l : List String) (st : ChunkState), IdxInv document_id st →
      IdxInv document_id
        (l.foldl (chunkStep tok chunk_size chunk_overlap document_id) st) := by
    intro l
    induction l with
    | nil => intro st hst; exact hst
    | cons a l ih =>
      intro st hst
      exact ih _ (chunkStep_idx_inv tok chunk_size chunk_overlap document_id st a hst)
  have hinv : IdxInv document_id
      ((split_into_sentences (clean_text text)).foldl
        (chunkStep tok chunk_size chunk_overlap document_id)
        { chunks := [], current_chunk := "", current_tokens := 0, chunk_index := 0 }) :=
    hmain _ _ ⟨rfl, rfl, by intro c hc; exact absurd hc (List.not_mem_nil c)⟩
  have h0 : chunk_text tok chunk_size chunk_overlap text document_id =
      (let st := (split_into_sentences (clean_text text)).foldl
          (chunkStep tok chunk_size chunk_overlap document_id)
          { chunks := [], current_chunk := "", current_tokens := 0, chunk_index := 0 };
        if pyStripS st.current_chunk ≠ "" then
          st.chunks ++ [create_chunk tok (pyStripS st.current_chunk) st.chunk_index document_id]
        else st.chunks) := rfl
  rw [h0]
  exact chunk_final_idx tok document_id _ hinv

/-! ## add_chunks on fresh keys appends its batch -/

/-- The records stored by `add_chunks` for a batch, in input order. -/
def batchRecords (embeds : List (List ℝ)) : ℕ → List Chunk → Store
  | _, [] => []
  | i, c :: cs => (chunkKey c, recordOfChunk c (embeds.getD i [])) :: batchRecords embeds (i + 1) cs

theorem addChunksAux_ids (embeds : List (List ℝ)) :
    ∀ (chunks : List Chunk) (store : Store) (i : ℕ),
      (addChunksAux embeds store i chunks).2 = chunks.map chunkKey := by
  intro chunks
  induction chunks with
  | nil => intro store i; rfl
  | cons c cs ih =>
    intro store i
    show (chunkKey c) :: (addChunksAux embeds _ (i + 1) cs).2 = _
    rw [ih]
    rfl

theorem dictSet_fresh (s : Store) (k : String) (v : EmbeddingRecord)
    (h : ¬ dictContains s k = true) : dictSet s k v = s ++ [(k, v)] := by
  unfold dictSet
  rw [if_neg h]

theorem addChunksAux_fresh (embeds : List (List ℝ)) :
    ∀ (chunks : List Chunk) (store : Store) (i : ℕ),
      (∀ c ∈ chunks, ¬ dictContains store (chunkKey c) = true) →
      (chunks.map chunkKey).Nodup →
      (addChunksAux embeds store i chunks).1 = store ++ batchRecords embeds i chunks := by
  intro chunks
  induction chunks with
  | nil => intro store i _ _; simp [addChunksAux, batchRecords]
  | cons c cs ih =>
    intro store i hfresh hnodup
    have hc : ¬ dictContains store (chunkKey c) = true := hfresh c (List.mem_cons_self c cs)
    have hset : dictSet store (chunkKey c) (recordOfChunk c (embeds.getD i []))
        = store ++ [(chunkKey c, recordOfChunk c (embeds.getD i []))] :=
      dictSet_fresh _ _ _ hc
    have hfresh' : ∀ c' ∈ cs, ¬ dictContains
        (store ++ [(chunkKey c, recordOfChunk c (embeds.getD i []))]) (chunkKey c') = true := by
      intro c' hc' hcont
      have hmem := (dictContains_iff_mem_keys _ _).mp hcont
      rw [List.map_append] at hmem
      rcases List.mem_append.mp hmem with hmem | hmem
      · exact hfresh c' (List.mem_cons_of_mem c hc') ((dictContains_iff_mem_keys _ _).mpr hmem)
      · simp only [List.map_cons, List.map_nil, List.mem_singleton] at hmem
        have : chunkKey c ∈ cs.map chunkKey := by
          rw [← hmem]
          exact List.mem_map_of_mem chunkKey hc'
        rw [List.map_cons] at hnodup
        exact (List.nodup_cons.mp hnodup).1 this
    have ihres := ih (store ++ [(chunkKey c, recordOfChunk c (embeds.getD i []))]) (i + 1)
      hfresh' (by rw [List.map_cons] at hnodup; exact (List.nodup_cons.mp hnodup).2)
    show (addChunksAux embeds
        (dictSet store (chunkKey c) (recordOfChunk c (embeds.getD i []))) (i + 1) cs).1 = _
    rw [hset, ihres, batchRecords, List.append_assoc]
    rfl

theorem batchRecords_filter_map (embeds : List (List ℝ)) (d : ℤ) :
    ∀ (chunks : List Chunk) (i : ℕ), (∀ c ∈ chunks, c.document_id = d) →
      ((batchRecords embeds i chunks).filter (fun p => p.2.document_id == d)).map
          (fun p => p.2.chunk_index)
        = chunks.map (fun c => c.chunk_index) := by
  intro chunks
  induction chunks with
  | nil => intro i _; rfl
  | cons c cs ih =>
    intro i hall
    have hd : c.document_id = d := hall c (List.mem_cons_self c cs)
    show (((chunkKey c, recordOfChunk c (embeds.getD i [])) :: batchRecords embeds (i + 1) cs).filter
        (fun p => p.2.document_id == d)).map (fun p => p.2.chunk_index) = _
    rw [List.filter_cons]
    have : ((chunkKey c, recordOfChunk c (embeds.getD i [])).2.document_id == d) = true := by
      show (c.document_id == d) = true
      exact beq_iff_eq.mpr hd
    rw [if_pos this, List.map_cons,
      ih (i + 1) (fun c' hc' => hall c' (List.mem_cons_of_mem c hc'))]
    rfl

/-! ## The ingest pipeline (documents/views.py)

`upload_document` sets the document to `processing`, runs
`_process_document`, and on any exception records status `error` with the
message.  Each fallible interaction with the outside world — text
extraction, the two `document.save()` calls, the embedding call inside
`add_chunks`, and `DocumentChunk.objects.bulk_create` — is modelled by a
field of `IngestEnv` giving its outcome; the document row, chunk rows and
the vector store are the explicitly threaded state. -/

/-- Document status values relevant to the ingest pipeline. -/
inductive DocStatus where
  | processing
  | processed
  | error
deriving DecidableEq

/-- A persisted `DocumentChunk` row (models.py lines 61-87, created in
views.py lines 336-348). -/
structure ChunkRow where
  document_id : ℤ
  chunk_index : ℤ
  text : String
  page_numbers : List ℤ
  embedding_id : String
  token_count : ℤ
deriving DecidableEq

/-- The persisted document state touched by the pipeline. -/
structure DocDB where
  status : DocStatus
  error_message : Option String
  page_count : ℤ
  chunkRows : List ChunkRow
deriving DecidableEq

/-- Outcomes of the pipeline's fallible steps: text extraction
(`extract_text`), the page-count save, the embedding call consumed by
`add_chunks`, the chunk `bulk_create`, and the final status save. -/
structure IngestEnv where
  extract : Except String (String × ℤ)
  savePageOk : Bool
  embeds : Except String (List (List ℝ))
  bulkCreateOk : Bool
  saveProcessedOk : Bool

/-- One `DocumentChunk` row built from a chunk dict and its embedding id
(views.py lines 337-346). -/
def mkChunkRow (c : Chunk) (embedding_id : String) : ChunkRow :=
  { document_id := c.document_id
    chunk_index := c.chunk_index
    text := c.text
    page_numbers := c.page_numbers
    embedding_id := embedding_id
    token_count := c.token_count }

/-- `_process_document` (views.py lines 308-359): extract, save the page
count, chunk, add to the vector store, bulk-create the chunk rows, mark
processed.  Returns the updated document row, the updated store, and
`some message` when a step raised (the store mutation of a completed
`add_chunks` is kept — there is no rollback). -/
def process_document (tok : Tokenizer) (chunk_size chunk_overlap : ℕ) (docId : ℤ)
    (db : DocDB) (store : Store) (env : IngestEnv) : DocDB × Store × Option String :=
  match env.extract with
  | .error e => (db, store, some e)
  | .ok (text, page_count) =>
    bif env.savePageOk then
      let db1 := { db with page_count := page_count }
      let chunks := chunk_text tok chunk_size chunk_overlap text docId
      bif chunks.isEmpty then (db1, store, some "No chunks generated from document")
      else
        match env.embeds with
        | .error e => (db1, store, some e)
        | .ok embeds =>
          let r := add_chunks store chunks embeds
          bif env.bulkCreateOk then
            let rows := List.zipWith mkChunkRow chunks r.2
            let db2 := { db1 with chunkRows := db1.chunkRows ++ rows }
            bif env.saveProcessedOk then
              ({ db2 with status := .processed, error_message := none }, r.1, none)
            else (db2, r.1, some "database error")
          else (db1, r.1, some "database error")
    else (db, store, some "database error")

/-- `upload_document`'s handling around `_process_document` (views.py
lines 119-140): on an exception the document is marked `error` with the
message; otherwise the processed state stands. -/
def runIngest (tok : Tokenizer) (chunk_size chunk_overlap : ℕ) (docId : ℤ)
    (db : DocDB) (store : Store) (env : IngestEnv) : DocDB × Store :=
  match process_document tok chunk_size chunk_overlap docId db store env with
  | (db', store', none) => (db', store')
  | (db', store', some e) => ({ db' with status := .error, error_message := some e }, store')

/-- The chunk indices of the embedding records stored for a document. -/
def storeDocIndices (store : Store) (d : ℤ) : List ℤ :=
  (store.filter (fun p => p.2.document_id == d)).map (fun p => p.2.chunk_index)

/-- The chunk indices of the persisted chunk rows of a document. -/
def rowDocIndices (db : DocDB) (d : ℤ) : List ℤ :=
  (db.chunkRows.filter (fun r => r.document_id == d)).map (fun r => r.chunk_index)

theorem zip_rows_filter_map (d : ℤ) :
    ∀ (chunks : List Chunk) (ids : List String), chunks.length = ids.length →
      (∀ c ∈ chunks, c.document_id = d) →
      ((List.zipWith mkChunkRow chunks ids).filter (fun r => r.document_id == d)).map
          (fun r => r.chunk_index)
        = chunks.map (fun c => c.chunk_index) := by
  intro chunks
  induction chunks with
  | nil => intro ids _ _; rfl
  | cons c cs ih =>
    intro ids hlen hall
    match ids with
    | [] => exact absurd hlen (by simp)
    | i0 :: itl =>
      show ((mkChunkRow c i0 :: List.zipWith mkChunkRow cs itl).filter
          (fun r => r.document_id == d)).map (fun r => r.chunk_index) = _
      rw [List.filter_cons]
      have hd : ((mkChunkRow c i0).document_id == d) = true :=
        beq_iff_eq.mpr (hall c (List.mem_cons_self c cs))
      rw [if_pos hd, List.map_cons,
        ih itl (by simpa using hlen) (fun c' hc' => hall c' (List.mem_cons_of_mem c hc'))]
      rfl

/-- **C4 (amended).** Starting from a `processing` document with no chunk
rows and a store with no records or keys for the document: the finished
ingest leaves the document `processed` or `error`; when `processed`, the
chunk rows for the document and the embedding records for it carry
identical chunk-index lists (non-empty — no chunk without an embedding, no
orphaned embedding); when `error`, either no chunk rows for the document
exist, or (failure in the final status save alone) the chunk rows again
match the embedding records exactly — but embedding records themselves are
not rolled back once the vector-store add has happened. -/
theorem ingest_outcomes (tok : Tokenizer) (chunk_size chunk_overlap : ℕ) (docId : ℤ)
    (db : DocDB) (store : Store) (env : IngestEnv)
    (hrows : db.chunkRows = [])
    (hdoc : ∀ p ∈ store, p.2.document_id ≠ docId)
    (hkeys : ∀ i : ℕ, ¬ dictContains store (mkChunkId docId (i : ℤ)) = true) :
    ((runIngest tok chunk_size chunk_overlap docId db store env).1.status = DocStatus.processed ∨
      (runIngest tok chunk_size chunk_overlap docId db store env).1.status = DocStatus.error) ∧
    ((runIngest tok chunk_size chunk_overlap docId db store env).1.status = DocStatus.processed →
      rowDocIndices (runIngest tok chunk_size chunk_overlap docId db store env).1 docId
        = storeDocIndices (runIngest tok chunk_size chunk_overlap docId db store env).2 docId ∧
      rowDocIndices (runIngest tok chunk_size chunk_overlap docId db store env).1 docId ≠ []) ∧
    ((runIngest tok chunk_size chunk_overlap docId db store env).1.status = DocStatus.error →
      rowDocIndices (runIngest tok chunk_size chunk_overlap docId db store env).1 docId = [] ∨
      rowDocIndices (runIngest tok chunk_size chunk_overlap docId db store env).1 docId
        = storeDocIndices (runIngest tok chunk_size chunk_overlap docId db store env).2 docId) := by
  obtain ⟨ext, spo, emb, bko, spr⟩ := env
  cases ext with
  | error e =>
    simp only [runIngest, process_document, cond]
    refine ⟨Or.inr trivial, fun hc => absurd hc (by decide), fun _ => Or.inl ?_⟩
    show (db.chunkRows.filter _).map _ = []
    rw [hrows]
    rfl
  | ok te =>
    obtain ⟨text, pc⟩ := te
    cases spo with
    | false =>
      simp only [runIngest, process_document, cond]
      refine ⟨Or.inr trivial, fun hc => absurd hc (by decide), fun _ => Or.inl ?_⟩
      show (db.chunkRows.filter _).map _ = []
      rw [hrows]
      rfl
    | true =>
      cases hch : (chunk_text tok chunk_size chunk_overlap text docId).isEmpty with
      | true =>
        simp only [runIngest, process_document, hch, cond]
        refine ⟨Or.inr trivial, fun hc => absurd hc (by decide), fun _ => Or.inl ?_⟩
        show (db.chunkRows.filter _).map _ = []
        rw [hrows]
        rfl
      | false =>
        obtain ⟨hidx, hdocs⟩ := chunk_text_idx tok chunk_size chunk_overlap text docId
        cases emb with
        | error e =>
          simp only [runIngest, process_document, hch, cond]
          refine ⟨Or.inr trivial, fun hc => absurd hc (by decide), fun _ => Or.inl ?_⟩
          show (db.chunkRows.filter _).map _ = []
          rw [hrows]
          rfl
        | ok embeds =>
          have hfresh : ∀ c ∈ chunk_text tok chunk_size chunk_overlap text docId,
              ¬ dictContains store (chunkKey c) = true := by
            intro c hc hcont
            have hdocc := hdocs c hc
            have hidxc : c.chunk_index
                ∈ (chunk_text tok chunk_size chunk_overlap text docId).map
                    (fun c => c.chunk_index) :=
              List.mem_map_of_mem _ hc
            rw [hidx] at hidxc
            obtain ⟨k, _, hk⟩ := List.mem_map.mp hidxc
            have hck : chunkKey c = mkChunkId docId (k : ℤ) := by
              unfold chunkKey
              rw [hdocc, ← hk]
              rfl
            rw [hck] at hcont
            exact hkeys k hcont
          have hnodup : ((chunk_text tok chunk_size chunk_overlap text docId).map chunkKey).Nodup := by
            have h1 : (chunk_text tok chunk_size chunk_overlap text docId).map chunkKey
                = ((chunk_text tok chunk_size chunk_overlap text docId).map
                    (fun c => c.chunk_index)).map (fun i => mkChunkId docId i) := by
              rw [List.map_map]
              refine List.map_congr_left ?_
              intro c hc
              show chunkKey c = mkChunkId docId c.chunk_index
              unfold chunkKey
              rw [hdocs c hc]
            rw [h1, hidx, List.map_map]
            refine List.Nodup.map ?_ (List.nodup_range _)
            intro a b hab
            exact mkChunkId_nat_inj docId a b hab
          have hadd : add_chunks store (chunk_text tok chunk_size chunk_overlap text docId) embeds
              = addChunksAux embeds store 0 (chunk_text tok chunk_size chunk_overlap text docId) := by
            simp [add_chunks, hch]
          have hstore1 : (add_chunks store (chunk_text tok chunk_size chunk_overlap text docId)
                embeds).1
              = store ++ batchRecords embeds 0 (chunk_text tok chunk_size chunk_overlap text docId) := by
            rw [hadd]
            exact addChunksAux_fresh embeds _ store 0 hfresh hnodup
          have hids : (add_chunks store (chunk_text tok chunk_size chunk_overlap text docId)
                embeds).2
              = (chunk_text tok chunk_size chunk_overlap text docId).map chunkKey := by
            rw [hadd]
            exact addChunksAux_ids embeds _ store 0
          have hsd : storeDocIndices
              (add_chunks store (chunk_text tok chunk_size chunk_overlap text docId) embeds).1 docId
              = (chunk_text tok chunk_size chunk_overlap text docId).map
                  (fun c => c.chunk_index) := by
            rw [hstore1]
            unfold storeDocIndices
            rw [List.filter_append, List.map_append]
            have hleft : store.filter (fun p => p.2.document_id == docId) = [] := by
              rw [List.filter_eq_nil_iff]
              intro p hp hcontra
              exact hdoc p hp (beq_iff_eq.mp hcontra)
            rw [hleft]
            simp only [List.map_nil, List.nil_append]
            exact batchRecords_filter_map embeds docId _ 0 hdocs
          have hzip : ((List.zipWith mkChunkRow (chunk_text tok chunk_size chunk_overlap text docId)
                ((add_chunks store (chunk_text tok chunk_size chunk_overlap text docId) embeds).2)).filter
                  (fun r => r.document_id == docId)).map (fun r => r.chunk_index)
              = (chunk_text tok chunk_size chunk_overlap text docId).map
                  (fun c => c.chunk_index) := by
            refine zip_rows_filter_map docId _ _ ?_ hdocs
            rw [hids, List.length_map]
          have hne : (chunk_text tok chunk_size chunk_overlap text docId).map
              (fun c => c.chunk_index) ≠ [] := by
            intro hmapnil
            rw [List.map_eq_nil_iff] at hmapnil
            rw [hmapnil] at hch
            exact absurd hch (by decide)
          cases bko with
          | false =>
            simp only [runIngest, process_document, hch, cond]
            refine ⟨Or.inr trivial, fun hc => absurd hc (by decide), fun _ => Or.inl ?_⟩
            show (db.chunkRows.filter _).map _ = []
            rw [hrows]
            rfl
          | true =>
            cases spr with
            | false =>
              simp only [runIngest, process_document, hch, cond]
              refine ⟨Or.inr trivial, fun hc => absurd hc (by decide), fun _ => Or.inr ?_⟩
              show ((db.chunkRows ++ List.zipWith mkChunkRow _ _).filter _).map _ = _
              rw [hrows, List.nil_append, hzip, hsd]
            | true =>
              simp only [runIngest, process_document, hch, cond]
              refine ⟨Or.inl trivial, fun _ => ⟨?_, ?_⟩, fun hc => absurd hc (by decide)⟩
              · show ((db.chunkRows ++ List.zipWith mkChunkRow _ _).filter _).map _ = _
                rw [hrows, List.nil_append, hzip, hsd]
              · show ((db.chunkRows ++ List.zipWith mkChunkRow _ _).filter _).map _ ≠ []
                rw [hrows, List.nil_append, hzip]
                exact hne

/-- A freshly uploaded document row: `processing`, no chunk rows. -/
def dbInit : DocDB :=
  { status := .processing, error_message := none, page_count := 0, chunkRows := [] }

/-- An ingest run in which every step succeeds except the final
`document.save()` that would set status `processed`. -/
def cxEnv : IngestEnv :=
  { extract := .ok ("Hi.", 1), savePageOk := true, embeds := .ok [[]]
    bulkCreateOk := true, saveProcessedOk := false }

/-- **C4 (counterexample).** When the final status save fails after the
vector-store add and the chunk insert succeeded, the document ends in
status `error` while one chunk row and one embedding-store record for it
remain — the error outcome is not "neither chunk records nor
embedding-store records exist". -/
theorem ingest_rollback_cx :
    (runIngest charTok 500 50 1 dbInit [] cxEnv).1.status = DocStatus.error ∧
    (runIngest charTok 500 50 1 dbInit [] cxEnv).1.chunkRows.length = 1 ∧
    (runIngest charTok 500 50 1 dbInit [] cxEnv).2.length = 1 := by
  refine ⟨?_, ?_, ?_⟩ <;> decide

/-- An ingest run in which every step succeeds. -/
def okEnv : IngestEnv :=
  { extract := .ok ("Hi.", 1), savePageOk := true, embeds := .ok [[]]
    bulkCreateOk := true, saveProcessedOk := true }

/-- Witness for the amended C4 at a fully successful concrete run. -/
theorem ingest_outcomes_witness :
    (dbInit.chunkRows = [] ∧ (∀ p ∈ ([] : Store), p.2.document_id ≠ 1) ∧
      (∀ i : ℕ, ¬ dictContains ([] : Store) (mkChunkId 1 (i : ℤ)) = true)) ∧
    (((runIngest charTok 500 50 1 dbInit [] okEnv).1.status = DocStatus.processed ∨
      (runIngest charTok 500 50 1 dbInit [] okEnv).1.status = DocStatus.error) ∧
    ((runIngest charTok 500 50 1 dbInit [] okEnv).1.status = DocStatus.processed →
      rowDocIndices (runIngest charTok 500 50 1 dbInit [] okEnv).1 1
        = storeDocIndices (runIngest charTok 500 50 1 dbInit [] okEnv).2 1 ∧
      rowDocIndices (runIngest charTok 500 50 1 dbInit [] okEnv).1 1 ≠ []) ∧
    ((runIngest charTok 500 50 1 dbInit [] okEnv).1.status = DocStatus.error →
      rowDocIndices (runIngest charTok 500 50 1 dbInit [] okEnv).1 1 = [] ∨
      rowDocIndices (runIngest charTok 500 50 1 dbInit [] okEnv).1 1
        = storeDocIndices (runIngest charTok 500 50 1 dbInit [] okEnv).2 1)) :=
  ⟨⟨rfl, fun p hp => absurd hp (List.not_mem_nil p),
      fun i h => by simp [dictContains] at h⟩,
    ingest_outcomes charTok 500 50 1 dbInit [] okEnv rfl
      (fun p hp => absurd hp (List.not_mem_nil p))
      (fun i h => by simp [dictContains] at h)⟩

end DocPlatform
